import Mathlib

/-!
Verification of `src/3p/3p.js` (third-party frame utilities).

The central object is `computeInMasterFrame(global, taskId, work, cb)`:

  export function computeInMasterFrame(global, taskId, work, cb) {
    const master = global.context.master;
    let tasks = master.__ampMasterTasks;
    if (!tasks) {
      tasks = master.__ampMasterTasks = {};
    }
    let cbs = tasks[taskId];
    if (!tasks[taskId]) {
      cbs = tasks[taskId] = [];
    }
    cbs.push(cb);
    if (!global.context.isMaster) {
      return;  // Only do work in master.
    }
    work(result => {
      for (let i = 0; i < cbs.length; i++) {
        cbs[i].call(null, result);
      }
      tasks[taskId] = {
        push: function(cb) {
          cb(result);
        },
      };
    });
  }

We embed this as a small-step state machine.  All frames share the single
master window object, hence a single shared state.  An execution is a list
of events:
  * `Event.call taskId isMaster cbId` - one invocation of
    `computeInMasterFrame` by some frame (callbacks are identified by
    numeric ids; the master designation of the calling frame is the
    `isMaster` flag);
  * `Event.complete workId result` - the completion closure handed to the
    `workId`-th invocation of a `work` function is invoked with `result`
    (results are modelled as numbers).

JavaScript aliasing that matters and is modelled explicitly:
  * `tasks[taskId]` holds either a mutable array of callbacks (our heap of
    lists, addressed by index) or, after resolution, the replacement object
    whose `push` immediately invokes the callback with the stored result
    (`Entry.resolved`);
  * the completion closure captures the local `cbs`, which is either an
    array reference or the resolved replacement object (`CbsRef`); for the
    replacement object `cbs.length` is `undefined` and the JS loop guard
    `0 < undefined` is false, so the fan-out loop body never runs;
  * callbacks may throw: the semantics is parameterised by `thr`, the set
    of callback ids that throw when invoked.  A throw inside
    `cbs.push(cb)` (resolved entry) aborts the rest of that
    `computeInMasterFrame` call; a throw inside the fan-out loop aborts the
    remaining iterations and the assignment of the resolved replacement
    object.

The state additionally carries instrumentation logs (`callLog`,
`deliveries`, `completions`) recording, in order, the calls made, the
callback invocations performed, and the completion-closure invocations;
these record what happened and have no influence on control flow.
-/

/-- What the local variable `cbs` of `computeInMasterFrame` can reference:
a mutable callback array (by heap address) or the resolved replacement
object `{push: function(cb) { cb(result); }}` with its stored result. -/
inductive CbsRef
  | arr (a : Nat)
  | stub (r : Nat)
deriving DecidableEq, Repr

/-- The value stored at `tasks[taskId]`: a pending callback array (by heap
address) or the resolved replacement object with its stored result. -/
inductive Entry
  | pending (a : Nat)
  | resolved (r : Nat)
deriving DecidableEq, Repr

/-- One invocation of a `work` function: the task it was made for and the
`cbs` reference captured by the completion closure passed to it. -/
structure Work where
  task : String
  captured : CbsRef
deriving DecidableEq, Repr

/-- An event of an execution: an invocation of `computeInMasterFrame`, or
an invocation of the completion closure of the `workId`-th work
invocation. -/
inductive Event
  | call (taskId : String) (isMaster : Bool) (cbId : Nat)
  | complete (workId : Nat) (result : Nat)
deriving DecidableEq, Repr

/-- The shared state hosted by the master window object, plus
instrumentation logs. -/
structure CState where
  /-- whether `master.__ampMasterTasks` has been created -/
  hasRegistry : Bool
  /-- the `__ampMasterTasks` dictionary -/
  entries : String → Option Entry
  /-- the callback arrays, addressed by allocation index -/
  heap : List (List Nat)
  /-- all `work` invocations made so far, in order -/
  works : List Work
  /-- log: every `computeInMasterFrame` call `(taskId, isMaster, cbId)` -/
  callLog : List (String × Bool × Nat)
  /-- log: every callback invocation `(taskId, cbId, result)` -/
  deliveries : List (String × Nat × Nat)
  /-- log: every completion-closure invocation `(taskId, result)` -/
  completions : List (String × Nat)

/-- The state before any call: no registry, no entries, nothing logged. -/
def initState : CState :=
  { hasRegistry := false
    entries := fun _ => none
    heap := []
    works := []
    callLog := []
    deliveries := []
    completions := [] }

/-- Assignment `tasks[t] = v` on the registry dictionary. -/
def setEntry (f : String → Option Entry) (t : String) (v : Option Entry) :
    String → Option Entry :=
  fun u => if u = t then v else f u

theorem setEntry_self (f : String → Option Entry) (t : String) (v : Option Entry) :
    setEntry f t v t = v := if_pos rfl

theorem setEntry_of_ne (f : String → Option Entry) (t : String) (v : Option Entry)
    (u : String) (h : u ≠ t) : setEntry f t v u = f u := if_neg h

/-- The fan-out loop of the completion closure:
`for (let i = 0; i < cbs.length; i++) cbs[i].call(null, result);`
over a callback array.  Returns the list of callback invocations
performed (cbId, result) and whether the loop ran to completion
(`false` when some callback threw, aborting the loop). -/
def fanOut (thr : Nat → Bool) (r : Nat) : List Nat → List (Nat × Nat) × Bool
  | [] => ([], true)
  | c :: rest =>
    if thr c then ([(c, r)], false)
    else
      let tail := fanOut thr r rest
      ((c, r) :: tail.1, tail.2)

/-- One step of the shared state under one event; `thr` tells which
callback ids throw when invoked.  Direct transcription of
`computeInMasterFrame` (for `Event.call`) and of its completion closure
(for `Event.complete`). -/
def stepT (thr : Nat → Bool) (s : CState) (e : Event) : CState :=
  match e with
  | Event.call t m c =>
    -- const master = global.context.master;
    -- let tasks = master.__ampMasterTasks;
    -- if (!tasks) { tasks = master.__ampMasterTasks = {}; }
    let s1 : CState := { s with hasRegistry := true
                                callLog := s.callLog ++ [(t, m, c)] }
    -- let cbs = tasks[taskId]; if (!tasks[taskId]) { cbs = tasks[taskId] = []; }
    match s1.entries t with
    | none =>
      let a := s1.heap.length
      -- cbs.push(cb) on the fresh array; then
      -- if (!global.context.isMaster) return;  work(closure capturing cbs)
      { s1 with
        heap := s1.heap ++ [[c]]
        entries := setEntry s1.entries t (some (Entry.pending a))
        works := s1.works ++ cond m [⟨t, CbsRef.arr a⟩] [] }
    | some (Entry.pending a) =>
      -- cbs.push(cb) on the existing array; work(closure) when master
      { s1 with
        heap := s1.heap.set a (s1.heap.getD a [] ++ [c])
        works := s1.works ++ cond m [⟨t, CbsRef.arr a⟩] [] }
    | some (Entry.resolved r) =>
      -- cbs.push(cb) on the resolved replacement object: invokes cb(result);
      -- if cb threw, the rest of the call is aborted (no work invocation)
      { s1 with
        deliveries := s1.deliveries ++ [(t, c, r)]
        works := s1.works ++ cond (thr c) [] (cond m [⟨t, CbsRef.stub r⟩] []) }
  | Event.complete w r =>
    match s.works.get? w with
    | none => s
    | some wk =>
      let s1 : CState := { s with completions := s.completions ++ [(wk.task, r)] }
      match wk.captured with
      | CbsRef.arr a =>
        -- for (let i = 0; i < cbs.length; i++) cbs[i].call(null, result);
        let fo := fanOut thr r (s1.heap.getD a [])
        let s2 : CState := { s1 with
          deliveries := s1.deliveries ++ fo.1.map (fun p => (wk.task, p.1, p.2)) }
        -- tasks[taskId] = {push: ...}; skipped when a callback threw
        cond fo.2
          { s2 with entries := setEntry s2.entries wk.task (some (Entry.resolved r)) }
          s2
      | CbsRef.stub _ =>
        -- cbs.length is undefined, `0 < undefined` is false: loop body never runs
        { s1 with entries := setEntry s1.entries wk.task (some (Entry.resolved r)) }

/-- The `thr` of an execution in which no callback throws. -/
def noThrow : Nat → Bool := fun _ => false

/-- Run an execution with throwing callbacks `thr` from the initial state. -/
def runT (thr : Nat → Bool) (es : List Event) : CState :=
  es.foldl (stepT thr) initState

/-- Run an execution in which no callback throws. -/
def run (es : List Event) : CState :=
  runT noThrow es

/-- The callback ids passed to `computeInMasterFrame` for task `t`, in call
order (projection of a call log). -/
def callsOf (log : List (String × Bool × Nat)) (t : String) : List Nat :=
  log.filterMap (fun x => if x.1 = t then some x.2.2 else none)

/-- The callback invocations `(cbId, result)` performed for task `t`, in
order (projection of a delivery log). -/
def delivOf (log : List (String × Nat × Nat)) (t : String) : List (Nat × Nat) :=
  log.filterMap (fun x => if x.1 = t then some x.2 else none)

/-- The results passed to completion closures of task `t`, in order
(projection of a completion log). -/
def compsOf (log : List (String × Nat)) (t : String) : List Nat :=
  log.filterMap (fun x => if x.1 = t then some x.2 else none)

/-- The `work` invocations made for task `t`, in order. -/
def worksOf (l : List Work) (t : String) : List Work :=
  l.filter (fun wk => decide (wk.task = t))

/-- Callback ids passed for task `t` in state `s`, in call order. -/
def callsFor (s : CState) (t : String) : List Nat := callsOf s.callLog t

/-- Callback invocations performed for task `t` in state `s`, in order. -/
def delivFor (s : CState) (t : String) : List (Nat × Nat) := delivOf s.deliveries t

/-- Completion results signalled for task `t` in state `s`, in order. -/
def compsFor (s : CState) (t : String) : List Nat := compsOf s.completions t

/-- `work` invocations made for task `t` in state `s`, in order. -/
def worksFor (s : CState) (t : String) : List Work := worksOf s.works t

/-- Number of `computeInMasterFrame` calls for task `t` made with
`isMaster` true. -/
def masterCallsFor : List Event → String → Nat
  | [], _ => 0
  | Event.call u m _ :: rest, t =>
    (if u = t ∧ m = true then 1 else 0) + masterCallsFor rest t
  | Event.complete _ _ :: rest, t => masterCallsFor rest t

/-- The resolved value stored at `tasks[u]`, if `u` is resolved. -/
def resolvedVal (s : CState) (u : String) : Option Nat :=
  match s.entries u with
  | some (Entry.resolved r) => some r
  | _ => none

/-! ### Projection lemmas for the instrumentation logs -/

theorem callsOf_snoc (l : List (String × Bool × Nat)) (u : String) (m : Bool)
    (c : Nat) (t : String) :
    callsOf (l ++ [(u, m, c)]) t = callsOf l t ++ (if u = t then [c] else []) := by
  by_cases h : u = t <;> simp [callsOf, h]

theorem delivOf_snoc (l : List (String × Nat × Nat)) (u : String) (c r : Nat)
    (t : String) :
    delivOf (l ++ [(u, c, r)]) t = delivOf l t ++ (if u = t then [(c, r)] else []) := by
  by_cases h : u = t <;> simp [delivOf, h]

theorem compsOf_snoc (l : List (String × Nat)) (u : String) (r : Nat) (t : String) :
    compsOf (l ++ [(u, r)]) t = compsOf l t ++ (if u = t then [r] else []) := by
  by_cases h : u = t <;> simp [compsOf, h]

theorem worksOf_snoc (l : List Work) (wk : Work) (t : String) :
    worksOf (l ++ [wk]) t = worksOf l t ++ (if wk.task = t then [wk] else []) := by
  by_cases h : wk.task = t <;> simp [worksOf, h]

/-- Projection of a block of deliveries all tagged with the same task. -/
theorem delivOf_tagged (cbs : List (Nat × Nat)) (u t : String) :
    delivOf (cbs.map (fun p => (u, p.1, p.2))) t = if u = t then cbs else [] := by
  induction cbs with
  | nil => simp [delivOf]
  | cons p rest ih =>
    by_cases h : u = t
    · simp [delivOf, h] at ih ⊢
      exact ih
    · simp [delivOf, h] at ih ⊢

/-! ### Heap access lemmas -/

theorem getD_append_left {α : Type} (l l2 : List α) (d : α) (a : Nat)
    (h : a < l.length) : (l ++ l2).getD a d = l.getD a d := by
  simp [List.getD_eq_getElem?_getD, List.getElem?_append_left h]

theorem getD_concat_length {α : Type} (l : List α) (x d : α) :
    (l ++ [x]).getD l.length d = x := by
  simp [List.getD_eq_getElem?_getD, List.getElem?_concat_length]

theorem getD_set_self {α : Type} (l : List α) (x d : α) (a : Nat)
    (h : a < l.length) : (l.set a x).getD a d = x := by
  simp [List.getD_eq_getElem?_getD, List.getElem?_set_self h]

theorem getD_set_ne {α : Type} (l : List α) (x d : α) (a b : Nat) (h : b ≠ a) :
    (l.set b x).getD a d = l.getD a d := by
  simp [List.getD_eq_getElem?_getD, List.getElem?_set_ne h]

/-- With no throwing callback, the fan-out loop delivers the whole array,
in order, and runs to completion. -/
theorem fanOut_noThrow (r : Nat) (cbs : List Nat) :
    fanOut noThrow r cbs = (cbs.map (fun c => (c, r)), true) := by
  induction cbs with
  | nil => rfl
  | cons c rest ih => simp [fanOut, noThrow, ih]

/-! ### Step shape lemmas -/

theorem stepT_call_of_none (thr : Nat → Bool) (s : CState) (t : String)
    (m : Bool) (c : Nat) (hE : s.entries t = none) :
    stepT thr s (Event.call t m c) =
      { s with hasRegistry := true
               callLog := s.callLog ++ [(t, m, c)]
               heap := s.heap ++ [[c]]
               entries := setEntry s.entries t (some (Entry.pending s.heap.length))
               works := s.works ++ cond m [⟨t, CbsRef.arr s.heap.length⟩] [] } := by
  simp only [stepT, hE]

theorem stepT_call_of_pending (thr : Nat → Bool) (s : CState) (t : String)
    (m : Bool) (c : Nat) (a : Nat) (hE : s.entries t = some (Entry.pending a)) :
    stepT thr s (Event.call t m c) =
      { s with hasRegistry := true
               callLog := s.callLog ++ [(t, m, c)]
               heap := s.heap.set a (s.heap.getD a [] ++ [c])
               works := s.works ++ cond m [⟨t, CbsRef.arr a⟩] [] } := by
  simp only [stepT, hE]

theorem stepT_call_of_resolved (thr : Nat → Bool) (s : CState) (t : String)
    (m : Bool) (c : Nat) (r : Nat) (hE : s.entries t = some (Entry.resolved r)) :
    stepT thr s (Event.call t m c) =
      { s with hasRegistry := true
               callLog := s.callLog ++ [(t, m, c)]
               deliveries := s.deliveries ++ [(t, c, r)]
               works := s.works ++ cond (thr c) [] (cond m [⟨t, CbsRef.stub r⟩] []) } := by
  simp only [stepT, hE]

theorem stepT_complete_of_none (thr : Nat → Bool) (s : CState) (w r : Nat)
    (hW : s.works.get? w = none) :
    stepT thr s (Event.complete w r) = s := by
  simp only [stepT, hW]

theorem stepT_complete_of_arr_ok (thr : Nat → Bool) (s : CState) (w r : Nat)
    (wk : Work) (a : Nat) (hW : s.works.get? w = some wk)
    (hc : wk.captured = CbsRef.arr a)
    (hfo : (fanOut thr r (s.heap.getD a [])).2 = true) :
    stepT thr s (Event.complete w r) =
      { s with completions := s.completions ++ [(wk.task, r)]
               deliveries := s.deliveries ++
                 (fanOut thr r (s.heap.getD a [])).1.map (fun p => (wk.task, p.1, p.2))
               entries := setEntry s.entries wk.task (some (Entry.resolved r)) } := by
  simp only [stepT, hW, hc, hfo, cond_true]

theorem stepT_complete_of_arr_abort (thr : Nat → Bool) (s : CState) (w r : Nat)
    (wk : Work) (a : Nat) (hW : s.works.get? w = some wk)
    (hc : wk.captured = CbsRef.arr a)
    (hfo : (fanOut thr r (s.heap.getD a [])).2 = false) :
    stepT thr s (Event.complete w r) =
      { s with completions := s.completions ++ [(wk.task, r)]
               deliveries := s.deliveries ++
                 (fanOut thr r (s.heap.getD a [])).1.map (fun p => (wk.task, p.1, p.2)) } := by
  simp only [stepT, hW, hc, hfo, cond_false]

theorem stepT_complete_of_stub (thr : Nat → Bool) (s : CState) (w r : Nat)
    (wk : Work) (r1 : Nat) (hW : s.works.get? w = some wk)
    (hc : wk.captured = CbsRef.stub r1) :
    stepT thr s (Event.complete w r) =
      { s with completions := s.completions ++ [(wk.task, r)]
               entries := setEntry s.entries wk.task (some (Entry.resolved r)) } := by
  simp only [stepT, hW, hc]

/-! ### The per-task invariant of the no-throw semantics -/

/-- Every pending entry of the registry points inside the heap. -/
def GuardOk (s : CState) : Prop :=
  ∀ u a, s.entries u = some (Entry.pending a) → a < s.heap.length

/-- Task `t` is pending on array `a`: the entry points at `a`, the array
holds exactly the callbacks registered for `t` in registration order, no
other task's pending entry points at `a`, and every `work` invocation made
for `t` captured this very array. -/
structure PendingAt (t : String) (s : CState) (a : Nat) : Prop where
  entry : s.entries t = some (Entry.pending a)
  queue : s.heap.getD a [] = callsFor s t
  fresh : ∀ u a2, u ≠ t → s.entries u = some (Entry.pending a2) → a2 ≠ a
  capt : ∀ wk, wk ∈ s.works → wk.task = t → wk.captured = CbsRef.arr a

/-- The state of task `t`, indexed by the list of completion results
signalled for `t` so far.  Before any completion, no callback for `t` has
been invoked and the entry is absent (no call yet) or pending; after
exactly one completion with result `r`, the entry is resolved with `r` and
the callbacks invoked for `t` are exactly those registered, in
registration order, each with result `r`.  After two or more completions
(a work function violating its contract) nothing is guaranteed. -/
def PhasePred (t : String) (s : CState) : List Nat → Prop
  | [] =>
    delivFor s t = [] ∧
    ((s.entries t = none ∧ callsFor s t = [] ∧ worksFor s t = []) ∨
      ∃ a, PendingAt t s a)
  | [r] =>
    s.entries t = some (Entry.resolved r) ∧
    delivFor s t = (callsFor s t).map (fun c => (c, r))
  | _ :: _ :: _ => True

/-- The invariant each step of the no-throw semantics maintains. -/
def TaskInv (t : String) (s : CState) : Prop :=
  GuardOk s ∧ PhasePred t s (compsFor s t)

theorem inv_init (t : String) : TaskInv t initState := by
  refine ⟨fun u a h => by simp [initState] at h, ?_⟩
  show PhasePred t initState []
  exact ⟨rfl, Or.inl ⟨rfl, rfl, rfl⟩⟩

/-- If no `work` invocation for `t` exists, every work record has another
task. -/
theorem worksOf_eq_nil (l : List Work) (t : String) (h : worksOf l t = [])
    (wk : Work) (hm : wk ∈ l) : wk.task ≠ t := by
  rw [worksOf, List.filter_eq_nil_iff] at h
  simpa using h wk hm

theorem mem_of_works_get (l : List Work) (w : Nat) (wk : Work)
    (h : l.get? w = some wk) : wk ∈ l := by
  rw [List.get?_eq_getElem?] at h
  exact List.getElem?_mem h

theorem inv_step_call (t t0 : String) (m : Bool) (c : Nat) (s : CState)
    (h : TaskInv t s) : TaskInv t (stepT noThrow s (Event.call t0 m c)) := by
  obtain ⟨hG, hP⟩ := h
  cases hE : s.entries t0 with
  | none =>
    rw [stepT_call_of_none noThrow s t0 m c hE]
    refine ⟨?_, ?_⟩
    · -- GuardOk
      intro u a2 hu
      simp only [List.length_append, List.length_cons, List.length_nil] at hu ⊢
      by_cases hut : u = t0
      · subst hut
        simp only [setEntry_self, Option.some.injEq, Entry.pending.injEq] at hu
        omega
      · rw [setEntry_of_ne _ _ _ _ hut] at hu
        have := hG u a2 hu
        omega
    · -- PhasePred: completions unchanged
      show PhasePred t _ (compsFor s t)
      rcases hcs : compsFor s t with _ | ⟨r, _ | ⟨r2, rest⟩⟩
      · -- phase: no completion yet
        rw [hcs] at hP
        obtain ⟨hD, hrest⟩ := hP
        by_cases ht : t0 = t
        · subst ht
          -- the right disjunct of hrest is impossible: entry is none
          have hcalls : callsFor s t0 = [] ∧ worksFor s t0 = [] := by
            rcases hrest with ⟨h1, h2, h3⟩ | ⟨a, pa⟩
            · exact ⟨h2, h3⟩
            · rw [pa.entry] at hE; cases hE
          refine ⟨?_, Or.inr ⟨s.heap.length, ?_, ?_, ?_, ?_⟩⟩
          · -- delivFor unchanged
            simpa [delivFor] using hD
          · exact setEntry_self _ _ _
          · -- queue: fresh array holds exactly [c]
            show (s.heap ++ [[c]]).getD s.heap.length [] = callsOf (s.callLog ++ [(t0, m, c)]) t0
            rw [getD_concat_length, callsOf_snoc, if_pos rfl]
            simp only [callsFor] at hcalls
            rw [hcalls.1]
            rfl
          · -- freshness
            intro u a2 hu hent
            simp only [setEntry_of_ne _ _ _ _ hu] at hent
            exact Nat.ne_of_lt (hG u a2 hent)
          · -- work capture: no work for t exists, new one only if m
            intro wk hm hwt
            simp only [List.mem_append] at hm
            rcases hm with hm | hm
            · exact absurd hwt (worksOf_eq_nil _ _ hcalls.2 wk hm)
            · cases m with
              | true => simp only [cond_true, List.mem_singleton] at hm; subst hm; rfl
              | false => simp only [cond_false, List.not_mem_nil] at hm
        · -- t0 ≠ t : everything about t unchanged
          have hcallsEq : callsOf (s.callLog ++ [(t0, m, c)]) t = callsFor s t := by
            rw [callsOf_snoc, if_neg ht, List.append_nil]; rfl
          refine ⟨?_, ?_⟩
          · simpa [delivFor] using hD
          · rcases hrest with ⟨h1, h2, h3⟩ | ⟨a, pa⟩
            · refine Or.inl ⟨?_, ?_, ?_⟩
              · simp only [setEntry_of_ne _ _ _ _ (fun hh => ht hh.symm)]; exact h1
              · show callsOf (s.callLog ++ [(t0, m, c)]) t = []
                rw [hcallsEq]; exact h2
              · show worksOf (s.works ++ cond m [⟨t0, CbsRef.arr s.heap.length⟩] []) t = []
                cases m with
                | true =>
                  rw [cond_true, worksOf_snoc, if_neg ht, List.append_nil]; exact h3
                | false =>
                  rw [cond_false, List.append_nil]; exact h3
            · refine Or.inr ⟨a, ?_, ?_, ?_, ?_⟩
              · simp only [setEntry_of_ne _ _ _ _ (fun hh => ht hh.symm)]; exact pa.entry
              · show (s.heap ++ [[c]]).getD a [] = callsOf (s.callLog ++ [(t0, m, c)]) t
                rw [getD_append_left _ _ _ _ (hG t a pa.entry), hcallsEq]
                exact pa.queue
              · intro u a2 hu hent
                by_cases hut : u = t0
                · subst hut
                  simp only [setEntry_self, Option.some.injEq, Entry.pending.injEq] at hent
                  have := hG t a pa.entry
                  omega
                · simp only [setEntry_of_ne _ _ _ _ hut] at hent
                  exact pa.fresh u a2 hu hent
              · intro wk hm hwt
                simp only [List.mem_append] at hm
                rcases hm with hm | hm
                · exact pa.capt wk hm hwt
                · cases m with
                  | true =>
                    simp only [cond_true, List.mem_singleton] at hm
                    subst hm
                    exact absurd hwt ht
                  | false => simp only [cond_false, List.not_mem_nil] at hm
      · -- phase: resolved with r
        rw [hcs] at hP
        obtain ⟨hres, hdel⟩ := hP
        have ht : t0 ≠ t := by
          intro hh; subst hh; rw [hres] at hE; cases hE
        refine ⟨?_, ?_⟩
        · simp only [setEntry_of_ne _ _ _ _ (fun hh => ht hh.symm)]; exact hres
        · show delivOf s.deliveries t = (callsOf (s.callLog ++ [(t0, m, c)]) t).map _
          rw [callsOf_snoc, if_neg ht, List.append_nil]
          exact hdel
      · -- phase: two or more completions
        trivial
  | some e0 =>
    cases e0 with
    | pending a0 =>
      rw [stepT_call_of_pending noThrow s t0 m c a0 hE]
      refine ⟨?_, ?_⟩
      · intro u a2 hu
        simp only [List.length_set] at hu ⊢
        exact hG u a2 hu
      · show PhasePred t _ (compsFor s t)
        rcases hcs : compsFor s t with _ | ⟨r, _ | ⟨r2, rest⟩⟩
        · rw [hcs] at hP
          obtain ⟨hD, hrest⟩ := hP
          by_cases ht : t0 = t
          · subst ht
            rcases hrest with ⟨h1, h2, h3⟩ | ⟨a, pa⟩
            · rw [h1] at hE; cases hE
            · have haa : a = a0 := by
                rw [pa.entry] at hE
                simp only [Option.some.injEq, Entry.pending.injEq] at hE
                exact hE
              subst haa
              refine ⟨by simpa [delivFor] using hD, Or.inr ⟨a, pa.entry, ?_, pa.fresh, ?_⟩⟩
              · show (s.heap.set a (s.heap.getD a [] ++ [c])).getD a []
                  = callsOf (s.callLog ++ [(t0, m, c)]) t0
                rw [getD_set_self _ _ _ _ (hG t0 a pa.entry), callsOf_snoc, if_pos rfl]
                show s.heap.getD a [] ++ [c] = callsFor s t0 ++ [c]
                rw [pa.queue]
              · intro wk hm hwt
                simp only [List.mem_append] at hm
                rcases hm with hm | hm
                · exact pa.capt wk hm hwt
                · cases m with
                  | true => simp only [cond_true, List.mem_singleton] at hm; subst hm; rfl
                  | false => simp only [cond_false, List.not_mem_nil] at hm
          · have hcallsEq : callsOf (s.callLog ++ [(t0, m, c)]) t = callsFor s t := by
              rw [callsOf_snoc, if_neg ht, List.append_nil]; rfl
            refine ⟨by simpa [delivFor] using hD, ?_⟩
            rcases hrest with ⟨h1, h2, h3⟩ | ⟨a, pa⟩
            · refine Or.inl ⟨h1, ?_, ?_⟩
              · show callsOf (s.callLog ++ [(t0, m, c)]) t = []
                rw [hcallsEq]; exact h2
              · show worksOf (s.works ++ cond m [⟨t0, CbsRef.arr a0⟩] []) t = []
                cases m with
                | true => rw [cond_true, worksOf_snoc, if_neg ht, List.append_nil]; exact h3
                | false => rw [cond_false, List.append_nil]; exact h3
            · -- a ≠ a0 by freshness of t0's pending entry
              have hne : a0 ≠ a := pa.fresh t0 a0 ht hE
              refine Or.inr ⟨a, pa.entry, ?_, pa.fresh, ?_⟩
              · show (s.heap.set a0 (s.heap.getD a0 [] ++ [c])).getD a []
                  = callsOf (s.callLog ++ [(t0, m, c)]) t
                rw [getD_set_ne _ _ _ _ _ hne, hcallsEq]
                exact pa.queue
              · intro wk hm hwt
                simp only [List.mem_append] at hm
                rcases hm with hm | hm
                · exact pa.capt wk hm hwt
                · cases m with
                  | true =>
                    simp only [cond_true, List.mem_singleton] at hm
                    subst hm
                    exact absurd hwt ht
                  | false => simp only [cond_false, List.not_mem_nil] at hm
        · rw [hcs] at hP
          obtain ⟨hres, hdel⟩ := hP
          have ht : t0 ≠ t := by
            intro hh; subst hh; rw [hres] at hE; cases hE
          refine ⟨hres, ?_⟩
          show delivOf s.deliveries t = (callsOf (s.callLog ++ [(t0, m, c)]) t).map _
          rw [callsOf_snoc, if_neg ht, List.append_nil]
          exact hdel
        · trivial
    | resolved r0 =>
      rw [stepT_call_of_resolved noThrow s t0 m c r0 hE]
      refine ⟨?_, ?_⟩
      · intro u a2 hu
        exact hG u a2 hu
      · show PhasePred t _ (compsFor s t)
        rcases hcs : compsFor s t with _ | ⟨r, _ | ⟨r2, rest⟩⟩
        · -- phase []: entry for t is none or pending, so t0 ≠ t
          rw [hcs] at hP
          obtain ⟨hD, hrest⟩ := hP
          have ht : t0 ≠ t := by
            intro hh
            subst hh
            rcases hrest with ⟨h1, _, _⟩ | ⟨a, pa⟩
            · rw [h1] at hE; cases hE
            · rw [pa.entry] at hE; cases hE
          have hcallsEq : callsOf (s.callLog ++ [(t0, m, c)]) t = callsFor s t := by
            rw [callsOf_snoc, if_neg ht, List.append_nil]; rfl
          refine ⟨?_, ?_⟩
          · show delivOf (s.deliveries ++ [(t0, c, r0)]) t = []
            rw [delivOf_snoc, if_neg ht, List.append_nil]
            exact hD
          · rcases hrest with ⟨h1, h2, h3⟩ | ⟨a, pa⟩
            · refine Or.inl ⟨h1, ?_, ?_⟩
              · show callsOf (s.callLog ++ [(t0, m, c)]) t = []
                rw [hcallsEq]; exact h2
              · show worksOf (s.works ++ cond (noThrow c) [] (cond m [⟨t0, CbsRef.stub r0⟩] [])) t = []
                cases m with
                | true =>
                  rw [show noThrow c = false from rfl, cond_false, cond_true,
                    worksOf_snoc, if_neg ht, List.append_nil]
                  exact h3
                | false =>
                  rw [show noThrow c = false from rfl, cond_false, cond_false, List.append_nil]
                  exact h3
            · refine Or.inr ⟨a, pa.entry, ?_, pa.fresh, ?_⟩
              · show s.heap.getD a [] = callsOf (s.callLog ++ [(t0, m, c)]) t
                rw [hcallsEq]; exact pa.queue
              · intro wk hm hwt
                simp only [List.mem_append] at hm
                rcases hm with hm | hm
                · exact pa.capt wk hm hwt
                · cases m with
                  | true =>
                    rw [show noThrow c = false from rfl] at hm
                    simp only [cond_false, cond_true, List.mem_singleton] at hm
                    subst hm
                    exact absurd hwt ht
                  | false =>
                    rw [show noThrow c = false from rfl] at hm
                    simp only [cond_false, List.not_mem_nil] at hm
        · rw [hcs] at hP
          obtain ⟨hres, hdel⟩ := hP
          by_cases ht : t0 = t
          · subst ht
            have hrr : r0 = r := by
              rw [hres] at hE
              simp only [Option.some.injEq, Entry.resolved.injEq] at hE
              exact hE.symm
            subst hrr
            refine ⟨hres, ?_⟩
            show delivOf (s.deliveries ++ [(t0, c, r0)]) t0
              = (callsOf (s.callLog ++ [(t0, m, c)]) t0).map _
            rw [delivOf_snoc, if_pos rfl, callsOf_snoc, if_pos rfl, List.map_append]
            rw [show delivOf s.deliveries t0 = (callsFor s t0).map (fun c => (c, r0)) from hdel]
            rfl
          · refine ⟨hres, ?_⟩
            show delivOf (s.deliveries ++ [(t0, c, r0)]) t
              = (callsOf (s.callLog ++ [(t0, m, c)]) t).map _
            rw [delivOf_snoc, if_neg ht, List.append_nil, callsOf_snoc, if_neg ht,
              List.append_nil]
            exact hdel
        · trivial

theorem delivOf_append (l1 l2 : List (String × Nat × Nat)) (t : String) :
    delivOf (l1 ++ l2) t = delivOf l1 t ++ delivOf l2 t := by
  simp [delivOf]

theorem inv_step_complete (t : String) (w r0 : Nat) (s : CState)
    (h : TaskInv t s) : TaskInv t (stepT noThrow s (Event.complete w r0)) := by
  obtain ⟨hG, hP⟩ := h
  cases hW : s.works.get? w with
  | none => rw [stepT_complete_of_none noThrow s w r0 hW]; exact ⟨hG, hP⟩
  | some wk =>
    have hmem : wk ∈ s.works := mem_of_works_get _ _ _ hW
    cases hc : wk.captured with
    | arr a =>
      have hfo : (fanOut noThrow r0 (s.heap.getD a [])).2 = true := by
        rw [fanOut_noThrow]
      rw [stepT_complete_of_arr_ok noThrow s w r0 wk a hW hc hfo]
      refine ⟨?_, ?_⟩
      · intro u a2 hu
        by_cases hut : u = wk.task
        · subst hut
          simp only [setEntry_self] at hu
          cases Option.some.inj hu
        · simp only [setEntry_of_ne _ _ _ _ hut] at hu
          exact hG u a2 hu
      · show PhasePred t _ (compsOf (s.completions ++ [(wk.task, r0)]) t)
        rw [compsOf_snoc]
        by_cases hwt : wk.task = t
        · rw [if_pos hwt]
          rcases hcs : compsFor s t with _ | ⟨r, _ | ⟨r2, rest⟩⟩
          · rw [hcs] at hP
            obtain ⟨hD, hrest⟩ := hP
            rw [show compsOf s.completions t = compsFor s t from rfl, hcs,
              List.nil_append]
            rcases hrest with ⟨h1, h2, h3⟩ | ⟨a1, pa⟩
            · exact absurd hwt (worksOf_eq_nil _ _ h3 wk hmem)
            · have hco := pa.capt wk hmem hwt
              rw [hc] at hco
              have haa : a = a1 := by
                simp only [CbsRef.arr.injEq] at hco
                exact hco
              subst haa
              subst hwt
              refine ⟨setEntry_self _ _ _, ?_⟩
              show delivOf (s.deliveries ++
                  (fanOut noThrow r0 (s.heap.getD a [])).1.map
                    (fun p => (wk.task, p.1, p.2))) wk.task
                = (callsOf s.callLog wk.task).map (fun c => (c, r0))
              rw [delivOf_append]
              rw [show delivOf s.deliveries wk.task = [] from hD, List.nil_append]
              rw [fanOut_noThrow]
              rw [delivOf_tagged, if_pos rfl]
              rw [show s.heap.getD a [] = callsFor s wk.task from pa.queue]
              rfl
          · rw [hcs] at hP
            rw [show compsOf s.completions t = compsFor s t from rfl, hcs]
            trivial
          · rw [show compsOf s.completions t = compsFor s t from rfl, hcs]
            trivial
        · rw [if_neg hwt, List.append_nil]
          show PhasePred t _ (compsFor s t)
          have htw : t ≠ wk.task := fun hh => hwt hh.symm
          rcases hcs : compsFor s t with _ | ⟨r, _ | ⟨r2, rest⟩⟩
          · rw [hcs] at hP
            obtain ⟨hD, hrest⟩ := hP
            refine ⟨?_, ?_⟩
            · show delivOf (s.deliveries ++
                  (fanOut noThrow r0 (s.heap.getD a [])).1.map
                    (fun p => (wk.task, p.1, p.2))) t = []
              rw [delivOf_append, fanOut_noThrow]
              rw [delivOf_tagged, if_neg hwt, List.append_nil]
              exact hD
            · rcases hrest with ⟨h1, h2, h3⟩ | ⟨a1, pa⟩
              · refine Or.inl ⟨?_, h2, h3⟩
                simp only [setEntry_of_ne _ _ _ _ htw]
                exact h1
              · refine Or.inr ⟨a1, ?_, pa.queue, ?_, pa.capt⟩
                · simp only [setEntry_of_ne _ _ _ _ htw]
                  exact pa.entry
                · intro u a2 hu hent
                  by_cases hut : u = wk.task
                  · subst hut
                    simp only [setEntry_self] at hent
                    cases Option.some.inj hent
                  · simp only [setEntry_of_ne _ _ _ _ hut] at hent
                    exact pa.fresh u a2 hu hent
          · rw [hcs] at hP
            obtain ⟨hres, hdel⟩ := hP
            refine ⟨?_, ?_⟩
            · simp only [setEntry_of_ne _ _ _ _ htw]
              exact hres
            · show delivOf (s.deliveries ++
                  (fanOut noThrow r0 (s.heap.getD a [])).1.map
                    (fun p => (wk.task, p.1, p.2))) t
                = (callsOf s.callLog t).map (fun c => (c, r))
              rw [delivOf_append, fanOut_noThrow]
              rw [delivOf_tagged, if_neg hwt, List.append_nil]
              exact hdel
          · trivial
    | stub r1 =>
      rw [stepT_complete_of_stub noThrow s w r0 wk r1 hW hc]
      refine ⟨?_, ?_⟩
      · intro u a2 hu
        by_cases hut : u = wk.task
        · subst hut
          simp only [setEntry_self] at hu
          cases Option.some.inj hu
        · simp only [setEntry_of_ne _ _ _ _ hut] at hu
          exact hG u a2 hu
      · show PhasePred t _ (compsOf (s.completions ++ [(wk.task, r0)]) t)
        rw [compsOf_snoc]
        by_cases hwt : wk.task = t
        · rw [if_pos hwt]
          rcases hcs : compsFor s t with _ | ⟨r, _ | ⟨r2, rest⟩⟩
          · rw [hcs] at hP
            obtain ⟨hD, hrest⟩ := hP
            rcases hrest with ⟨h1, h2, h3⟩ | ⟨a1, pa⟩
            · exact absurd hwt (worksOf_eq_nil _ _ h3 wk hmem)
            · have hco := pa.capt wk hmem hwt
              rw [hc] at hco
              cases hco
          · rw [show compsOf s.completions t = compsFor s t from rfl, hcs]
            trivial
          · rw [show compsOf s.completions t = compsFor s t from rfl, hcs]
            trivial
        · rw [if_neg hwt, List.append_nil]
          show PhasePred t _ (compsFor s t)
          have htw : t ≠ wk.task := fun hh => hwt hh.symm
          rcases hcs : compsFor s t with _ | ⟨r, _ | ⟨r2, rest⟩⟩
          · rw [hcs] at hP
            obtain ⟨hD, hrest⟩ := hP
            refine ⟨hD, ?_⟩
            rcases hrest with ⟨h1, h2, h3⟩ | ⟨a1, pa⟩
            · refine Or.inl ⟨?_, h2, h3⟩
              simp only [setEntry_of_ne _ _ _ _ htw]
              exact h1
            · refine Or.inr ⟨a1, ?_, pa.queue, ?_, pa.capt⟩
              · simp only [setEntry_of_ne _ _ _ _ htw]
                exact pa.entry
              · intro u a2 hu hent
                by_cases hut : u = wk.task
                · subst hut
                  simp only [setEntry_self] at hent
                  cases Option.some.inj hent
                · simp only [setEntry_of_ne _ _ _ _ hut] at hent
                  exact pa.fresh u a2 hu hent
          · rw [hcs] at hP
            obtain ⟨hres, hdel⟩ := hP
            refine ⟨?_, hdel⟩
            simp only [setEntry_of_ne _ _ _ _ htw]
            exact hres
          · trivial

/-- The invariant holds after any no-throw execution. -/
theorem taskInv_run (t : String) (es : List Event) : TaskInv t (run es) := by
  suffices h : ∀ s, TaskInv t s → TaskInv t (es.foldl (stepT noThrow) s) from
    h initState (inv_init t)
  induction es with
  | nil => intro s hs; exact hs
  | cons e rest ih =>
    intro s hs
    rw [List.foldl_cons]
    refine ih _ ?_
    cases e with
    | call t0 m c => exact inv_step_call t t0 m c s hs
    | complete w r => exact inv_step_complete t w r s hs

theorem worksOf_append_cond (l : List Work) (m : Bool) (wk : Work) (t : String) :
    (worksOf (l ++ cond m [wk] []) t).length
      = (worksOf l t).length + (if wk.task = t ∧ m = true then 1 else 0) := by
  cases m with
  | true =>
    rw [cond_true, worksOf_snoc]
    by_cases h : wk.task = t <;> simp [h]
  | false =>
    rw [cond_false, List.append_nil]
    simp

/-- Each step adds one `work` invocation for `t` exactly when it is a
master call for `t` (no callback throwing). -/
theorem worksFor_step (t : String) (s : CState) (e : Event) :
    (worksFor (stepT noThrow s e) t).length =
      (worksFor s t).length + (match e with
        | Event.call u m _ => if u = t ∧ m = true then 1 else 0
        | Event.complete _ _ => 0) := by
  cases e with
  | call t0 m c =>
    cases hE : s.entries t0 with
    | none =>
      rw [stepT_call_of_none noThrow s t0 m c hE]
      exact worksOf_append_cond s.works m ⟨t0, CbsRef.arr s.heap.length⟩ t
    | some e0 =>
      cases e0 with
      | pending a0 =>
        rw [stepT_call_of_pending noThrow s t0 m c a0 hE]
        exact worksOf_append_cond s.works m ⟨t0, CbsRef.arr a0⟩ t
      | resolved r0 =>
        rw [stepT_call_of_resolved noThrow s t0 m c r0 hE]
        exact worksOf_append_cond s.works m ⟨t0, CbsRef.stub r0⟩ t
  | complete w r =>
    cases hW : s.works.get? w with
    | none =>
      rw [stepT_complete_of_none noThrow s w r hW]
      simp
    | some wk =>
      cases hc : wk.captured with
      | arr a =>
        have hfo : (fanOut noThrow r (s.heap.getD a [])).2 = true := by
          rw [fanOut_noThrow]
        rw [stepT_complete_of_arr_ok noThrow s w r wk a hW hc hfo]
        simp [worksFor]
      | stub r1 =>
        rw [stepT_complete_of_stub noThrow s w r wk r1 hW hc]
        simp [worksFor]

theorem worksFor_run_aux (t : String) (es : List Event) :
    ∀ s, (worksFor (es.foldl (stepT noThrow) s) t).length
      = (worksFor s t).length + masterCallsFor es t := by
  induction es with
  | nil => intro s; simp [masterCallsFor]
  | cons e rest ih =>
    intro s
    rw [List.foldl_cons, ih, worksFor_step]
    cases e with
    | call u m c =>
      simp only [masterCallsFor]
      omega
    | complete w r =>
      simp only [masterCallsFor]
      omega

/-- If a throwing callback `c` sits in the array after throw-free `pre`,
the fan-out loop delivers `pre` and `c` and then aborts. -/
theorem fanOut_throw (thr : Nat → Bool) (r : Nat) (pre post : List Nat) (c : Nat)
    (hpre : ∀ d ∈ pre, thr d = false) (hthr : thr c = true) :
    fanOut thr r (pre ++ c :: post) = ((pre ++ [c]).map (fun d => (d, r)), false) := by
  induction pre with
  | nil => simp [fanOut, hthr]
  | cons d rest ih =>
    have hd : thr d = false := hpre d (List.mem_cons_self d rest)
    have ih2 := ih (fun x hx => hpre x (List.mem_cons_of_mem d hx))
    simp [fanOut, hd, ih2]

/-! ### Claims C1-C6: `computeInMasterFrame` -/

/-- Claim C1 (amended): across any sequence of `computeInMasterFrame`
calls sharing one master, the number of `work` invocations for a `taskId`
equals the number of calls made for it with the master designation: every
master call invokes `work` - a repeated master call, before or after
resolution, invokes it again - and non-master calls never do.  `work`
runs exactly once precisely when the master calls exactly once. -/
theorem computeInMasterFrame_work_invocations_eq_master_calls
    (es : List Event) (t : String) :
    (worksFor (run es) t).length = masterCallsFor es t := by
  have h := worksFor_run_aux t es initState
  simpa [worksFor, worksOf, initState] using h

/-- Claim C1 (counterexample to the claim as stated): a second master call
for the same `taskId` before resolution invokes the work function a
second time, so across this sequence `work` runs twice, not once. -/
theorem computeInMasterFrame_work_invoked_twice_on_repeated_master_calls :
    (worksFor (run [Event.call "t" true 0, Event.call "t" true 1]) "t").length = 2 := by
  decide

/-- Claim C2: in any execution in which exactly one completion with
result `r` is signalled for `taskId` `t` (the work function keeping its
contract), the callback invocations for `t` are exactly the callbacks
passed to the calls for `t`, each invoked exactly once, in registration
order, every one with the identical result `r`. -/
theorem computeInMasterFrame_exactly_once_delivery
    (es : List Event) (t : String) (r : Nat)
    (h : compsFor (run es) t = [r]) :
    delivFor (run es) t = (callsFor (run es) t).map (fun c => (c, r)) := by
  obtain ⟨hG, hP⟩ := taskInv_run t es
  rw [h] at hP
  exact hP.2

theorem computeInMasterFrame_exactly_once_delivery_witness :
    compsFor (run [Event.call "t" false 1, Event.call "t" true 2,
        Event.complete 0 9, Event.call "t" false 3]) "t" = [9] ∧
    delivFor (run [Event.call "t" false 1, Event.call "t" true 2,
        Event.complete 0 9, Event.call "t" false 3]) "t"
      = (callsFor (run [Event.call "t" false 1, Event.call "t" true 2,
          Event.complete 0 9, Event.call "t" false 3]) "t").map (fun c => (c, 9)) :=
  ⟨by decide, computeInMasterFrame_exactly_once_delivery _ "t" 9 (by decide)⟩

/-- Claim C3 (counterexample to the claim as stated): after `taskId` "t"
is resolved with result 5, a new master call does deliver its callback
immediately with the stored 5, but it also invokes the work function
again: two `work` invocations exist after this sequence. -/
theorem computeInMasterFrame_master_call_after_resolution_reinvokes_work :
    (worksFor (run [Event.call "t" true 0, Event.complete 0 5,
        Event.call "t" true 1]) "t").length = 2 ∧
    (run [Event.call "t" true 0, Event.complete 0 5,
        Event.call "t" true 1]).deliveries = [("t", 0, 5), ("t", 1, 5)] :=
  ⟨by decide, by decide⟩

/-- Claim C3 (amended): a call for an already-resolved `taskId` invokes
the new callback immediately and synchronously with the stored result,
for every caller; but the work function is skipped only by non-master
callers - a master caller invokes `work` again. -/
theorem computeInMasterFrame_resolved_entry_immediate_delivery
    (s : CState) (t : String) (m : Bool) (c r : Nat)
    (hE : s.entries t = some (Entry.resolved r)) :
    (stepT noThrow s (Event.call t m c)).deliveries = s.deliveries ++ [(t, c, r)] ∧
    ((stepT noThrow s (Event.call t m c)).works = s.works ↔ m = false) := by
  rw [stepT_call_of_resolved noThrow s t m c r hE]
  refine ⟨rfl, ?_⟩
  constructor
  · intro hw
    cases m with
    | false => rfl
    | true =>
      exfalso
      have hlen := congrArg List.length hw
      simp only [noThrow, cond_false, cond_true, List.length_append,
        List.length_cons, List.length_nil] at hlen
      omega
  · intro hm
    subst hm
    simp [noThrow]

theorem computeInMasterFrame_resolved_entry_immediate_delivery_witness :
    (run [Event.call "t" true 0, Event.complete 0 3]).entries "t"
      = some (Entry.resolved 3) ∧
    ((stepT noThrow (run [Event.call "t" true 0, Event.complete 0 3])
        (Event.call "t" false 7)).deliveries
      = (run [Event.call "t" true 0, Event.complete 0 3]).deliveries ++ [("t", 7, 3)] ∧
    ((stepT noThrow (run [Event.call "t" true 0, Event.complete 0 3])
        (Event.call "t" false 7)).works
      = (run [Event.call "t" true 0, Event.complete 0 3]).works ↔ false = false)) :=
  ⟨by decide,
    computeInMasterFrame_resolved_entry_immediate_delivery _ "t" false 7 3 (by decide)⟩

/-- The only callback id that throws in the C4 scenario is 2. -/
def throwsTwo : Nat → Bool := fun n => n == 2

/-- Claim C4 (counterexample to the claim as stated): callbacks 1, 2, 3
are queued in that order for "t"; callback 2 throws during the fan-out.
Callback 3 is never invoked and the entry stays pending - the exception
aborts the remaining deliveries and prevents the transition to
resolved. -/
theorem computeInMasterFrame_throwing_callback_aborts_fanout_cex :
    (runT throwsTwo [Event.call "t" false 1, Event.call "t" false 2,
        Event.call "t" true 3, Event.complete 0 5]).deliveries
      = [("t", 1, 5), ("t", 2, 5)] ∧
    (runT throwsTwo [Event.call "t" false 1, Event.call "t" false 2,
        Event.call "t" true 3, Event.complete 0 5]).entries "t"
      = some (Entry.pending 0) :=
  ⟨by decide, by decide⟩

/-- Claim C4 (amended): when a queued callback throws during the fan-out,
the callbacks queued before it - and the throwing one itself - are
invoked with the result, but the exception aborts the loop: the callbacks
queued after it are not invoked by that fan-out, and the entry does not
transition to resolved (the replacement-object assignment is skipped). -/
theorem computeInMasterFrame_fanout_aborts_at_throwing_callback
    (thr : Nat → Bool) (s : CState) (w : Nat) (wk : Work) (a r : Nat)
    (pre post : List Nat) (c : Nat)
    (hw : s.works.get? w = some wk) (hcap : wk.captured = CbsRef.arr a)
    (hq : s.heap.getD a [] = pre ++ c :: post)
    (hpre : ∀ d ∈ pre, thr d = false) (hthr : thr c = true) :
    (stepT thr s (Event.complete w r)).deliveries
      = s.deliveries ++ (pre ++ [c]).map (fun d => (wk.task, d, r)) ∧
    (stepT thr s (Event.complete w r)).entries wk.task = s.entries wk.task := by
  have hfan : fanOut thr r (pre ++ c :: post)
      = ((pre ++ [c]).map (fun d => (d, r)), false) := fanOut_throw thr r pre post c hpre hthr
  have hfo : (fanOut thr r (s.heap.getD a [])).2 = false := by rw [hq, hfan]
  rw [stepT_complete_of_arr_abort thr s w r wk a hw hcap hfo]
  refine ⟨?_, rfl⟩
  show s.deliveries ++ (fanOut thr r (s.heap.getD a [])).1.map (fun p => (wk.task, p.1, p.2))
      = s.deliveries ++ (pre ++ [c]).map (fun d => (wk.task, d, r))
  rw [hq, hfan, List.map_map]
  rfl

theorem computeInMasterFrame_fanout_aborts_at_throwing_callback_witness :
    (runT throwsTwo [Event.call "t" false 1, Event.call "t" false 2,
        Event.call "t" true 3]).works.get? 0 = some ⟨"t", CbsRef.arr 0⟩ ∧
    (runT throwsTwo [Event.call "t" false 1, Event.call "t" false 2,
        Event.call "t" true 3]).heap.getD 0 [] = [1] ++ 2 :: [3] ∧
    (∀ d ∈ [1], throwsTwo d = false) ∧ throwsTwo 2 = true ∧
    ((stepT throwsTwo (runT throwsTwo [Event.call "t" false 1, Event.call "t" false 2,
        Event.call "t" true 3]) (Event.complete 0 5)).deliveries
      = (runT throwsTwo [Event.call "t" false 1, Event.call "t" false 2,
          Event.call "t" true 3]).deliveries
        ++ ([1] ++ [2]).map (fun d => ((⟨"t", CbsRef.arr 0⟩ : Work).task, d, 5)) ∧
    (stepT throwsTwo (runT throwsTwo [Event.call "t" false 1, Event.call "t" false 2,
        Event.call "t" true 3]) (Event.complete 0 5)).entries (⟨"t", CbsRef.arr 0⟩ : Work).task
      = (runT throwsTwo [Event.call "t" false 1, Event.call "t" false 2,
          Event.call "t" true 3]).entries (⟨"t", CbsRef.arr 0⟩ : Work).task) :=
  ⟨by decide, by decide, by decide, by decide,
    computeInMasterFrame_fanout_aborts_at_throwing_callback throwsTwo _ 0
      ⟨"t", CbsRef.arr 0⟩ 0 5 [1] [3] 2 (by decide) (by decide) (by decide)
      (by decide) (by decide)⟩

/-- Claim C5 (counterexample to the claim as stated): a single non-master
call from the initial state mutates the master's task registry: it
creates `__ampMasterTasks`, creates the entry for "t", allocates the
callback array and pushes its callback into it. -/
theorem computeInMasterFrame_nonmaster_call_mutates_registry :
    initState.entries "t" = none ∧ initState.heap = [] ∧
    initState.hasRegistry = false ∧
    (run [Event.call "t" false 7]).entries "t" = some (Entry.pending 0) ∧
    (run [Event.call "t" false 7]).heap = [[7]] ∧
    (run [Event.call "t" false 7]).hasRegistry = true :=
  ⟨rfl, rfl, rfl, by decide, by decide, by decide⟩

/-- Claim C5 (amended): a non-master call does write to the master's task
registry - it creates the registry on demand, creates the pending entry
and enqueues its callback - but it never invokes the work function and
never creates or changes a resolved entry: the resolved state is written
only by completion closures, which only master calls create. -/
theorem computeInMasterFrame_nonmaster_call_no_work_no_resolve
    (thr : Nat → Bool) (s : CState) (t : String) (c : Nat) :
    (stepT thr s (Event.call t false c)).works = s.works ∧
    (∀ u r, (stepT thr s (Event.call t false c)).entries u = some (Entry.resolved r)
      ↔ s.entries u = some (Entry.resolved r)) := by
  cases hE : s.entries t with
  | none =>
    rw [stepT_call_of_none thr s t false c hE]
    refine ⟨by simp, ?_⟩
    intro u r
    constructor
    · intro hh
      by_cases hut : u = t
      · subst hut
        simp only [setEntry_self] at hh
        cases Option.some.inj hh
      · simp only [setEntry_of_ne _ _ _ _ hut] at hh
        exact hh
    · intro hh
      by_cases hut : u = t
      · subst hut
        rw [hE] at hh
        cases hh
      · simp only [setEntry_of_ne _ _ _ _ hut]
        exact hh
  | some e0 =>
    cases e0 with
    | pending a0 =>
      rw [stepT_call_of_pending thr s t false c a0 hE]
      exact ⟨by simp, fun u r => Iff.rfl⟩
    | resolved r0 =>
      rw [stepT_call_of_resolved thr s t false c r0 hE]
      refine ⟨?_, fun u r => Iff.rfl⟩
      cases hth : thr c <;> simp

/-- Claim C6: if no completion has been signalled for `taskId` `t` yet and
`w` is a work invocation made for `t`, invoking its completion closure
with result `r` fans out synchronously to exactly the callbacks
registered for `t` so far, in registration (enqueue) order, each with
`r`. -/
theorem computeInMasterFrame_fanout_preserves_enqueue_order
    (es : List Event) (t : String) (w : Nat) (wk : Work) (r : Nat)
    (hcs : compsFor (run es) t = [])
    (hw : (run es).works.get? w = some wk) (hwt : wk.task = t) :
    delivFor (stepT noThrow (run es) (Event.complete w r)) t
      = (callsFor (run es) t).map (fun c => (c, r)) := by
  obtain ⟨hG, hP⟩ := taskInv_run t es
  rw [hcs] at hP
  obtain ⟨hD, hrest⟩ := hP
  have hmem : wk ∈ (run es).works := mem_of_works_get _ _ _ hw
  rcases hrest with ⟨h1, h2, h3⟩ | ⟨a, pa⟩
  · exact absurd hwt (worksOf_eq_nil _ _ h3 wk hmem)
  · have hco := pa.capt wk hmem hwt
    have hfo : (fanOut noThrow r ((run es).heap.getD a [])).2 = true := by
      rw [fanOut_noThrow]
    rw [stepT_complete_of_arr_ok noThrow (run es) w r wk a hw hco hfo]
    show delivOf ((run es).deliveries
        ++ (fanOut noThrow r ((run es).heap.getD a [])).1.map
          (fun p => (wk.task, p.1, p.2))) t
      = (callsOf (run es).callLog t).map (fun c => (c, r))
    rw [delivOf_append, fanOut_noThrow]
    rw [delivOf_tagged, if_pos hwt]
    rw [show delivOf (run es).deliveries t = [] from hD, List.nil_append]
    rw [show (run es).heap.getD a [] = callsFor (run es) t from pa.queue]
    rfl

theorem computeInMasterFrame_fanout_preserves_enqueue_order_witness :
    compsFor (run [Event.call "t" false 1, Event.call "t" false 2,
        Event.call "t" true 3]) "t" = [] ∧
    (run [Event.call "t" false 1, Event.call "t" false 2,
        Event.call "t" true 3]).works.get? 0 = some ⟨"t", CbsRef.arr 0⟩ ∧
    delivFor (stepT noThrow (run [Event.call "t" false 1, Event.call "t" false 2,
        Event.call "t" true 3]) (Event.complete 0 9)) "t"
      = (callsFor (run [Event.call "t" false 1, Event.call "t" false 2,
          Event.call "t" true 3]) "t").map (fun c => (c, 9)) :=
  ⟨by decide, by decide,
    computeInMasterFrame_fanout_preserves_enqueue_order _ "t" 0 ⟨"t", CbsRef.arr 0⟩ 9
      (by decide) (by decide) rfl⟩

/-! ### `validateSrcPrefix` (claims C7, C9)

  export function validateSrcPrefix(prefix, src) {
    if (!isArray(prefix)) {
      prefix = [prefix];
    }
    if (src !== undefined) {
      for (let p = 0; p <= prefix.length; p++) {
        const protocolIndex = src.indexOf(prefix[p]);
        if (protocolIndex == 0) {
          return;
        }
      }
    }
    throw new Error('Invalid src ' + src);
  }
-/

/-- The `prefix` parameter: a string or an array of strings. -/
inductive StrOrArr
  | str (v : String)
  | arr (l : List String)
deriving DecidableEq

/-- `if (!isArray(prefix)) { prefix = [prefix]; }` -/
def toArr : StrOrArr → List String
  | StrOrArr.str v => [v]
  | StrOrArr.arr l => l

/-- The JS read `prefix[p]`, converted to a string the way
`String.prototype.indexOf` converts its argument: an in-bounds read
yields the element, an out-of-bounds read yields `undefined`, and
`ToString(undefined)` is the string "undefined". -/
def jsArrGetStr (l : List String) (p : Nat) : String :=
  match l.get? p with
  | some v => v
  | none => "undefined"

/-- `src.indexOf(x) == 0`: the first occurrence of `x` in `src` is at
position 0, i.e. `src` starts with `x`. -/
def jsIndexOfIsZero (src x : String) : Bool :=
  x.toList.isPrefixOf src.toList

/-- The loop of `validateSrcPrefix`, from index `p`: note the guard is
`p <= prefix.length`, not `<`.  Returns `true` when some iteration
matched at position 0 (the function returns), `false` when the loop runs
out (the function falls through to `throw`). -/
def srcLoop (l : List String) (src : String) (p : Nat) : Bool :=
  if h : p ≤ l.length then
    if jsIndexOfIsZero src (jsArrGetStr l p) then true
    else srcLoop l src (p + 1)
  else false
termination_by l.length + 1 - p
decreasing_by omega

/-- `validateSrcPrefix(prefix, src)`: `true` when it returns normally,
`false` when it throws the `Invalid src` error.  `src` is an optional
string, `none` standing for the JS `undefined`. -/
def validateSrcPrefix (pfx : StrOrArr) (src : Option String) : Bool :=
  let l := toArr pfx
  match src with
  | some s => srcLoop l s 0
  | none => false

/-- The same loop, recording the indices `p` for which the body runs -
each such iteration performs the read `prefix[p]`. -/
def srcLoopReads (l : List String) (src : String) (p : Nat) : List Nat :=
  if h : p ≤ l.length then
    if jsIndexOfIsZero src (jsArrGetStr l p) then [p]
    else p :: srcLoopReads l src (p + 1)
  else []
termination_by l.length + 1 - p
decreasing_by omega

/-- When no index below `l.length` matches, the loop body runs for every
index from `p` up to and including `l.length`. -/
theorem srcLoopReads_no_match (l : List String) (src : String)
    (h : ∀ q ∈ List.range l.length, jsIndexOfIsZero src (jsArrGetStr l q) = false) :
    ∀ k p, l.length + 1 - p = k → srcLoopReads l src p = List.range' p k := by
  intro k
  induction k with
  | zero =>
    intro p hp
    rw [srcLoopReads, dif_neg (by omega)]
    rfl
  | succ n ih =>
    intro p hp
    rw [srcLoopReads, dif_pos (by omega : p ≤ l.length)]
    by_cases hm : p = l.length
    · have hn : n = 0 := by omega
      subst hn
      cases hcheck : jsIndexOfIsZero src (jsArrGetStr l p) with
      | true => rw [if_pos rfl]; rfl
      | false =>
        rw [if_neg Bool.false_ne_true]
        rw [srcLoopReads, dif_neg (by omega)]
        rfl
    · have hplt : p < l.length := by omega
      have hq := h p (List.mem_range.mpr hplt)
      rw [if_neg (by rw [hq]; exact Bool.false_ne_true)]
      rw [ih (p + 1) (by omega), List.range'_succ]

/-- Claim C7: for a prefix list of length `n` on which no index below `n`
matches, the fallback loop runs its body for every index `p` from 0 up to
and including `n` (guard `p <= prefix.length`), so its final iteration
reads index `n` - one past the end of the list, where the read yields the
JS `undefined` (which `indexOf` then stringifies to "undefined"). -/
theorem validateSrcPrefix_loop_reads_past_end (l : List String) (src : String)
    (h : ∀ q ∈ List.range l.length, jsIndexOfIsZero src (jsArrGetStr l q) = false) :
    srcLoopReads l src 0 = List.range (l.length + 1) ∧
    l.get? l.length = none ∧ jsArrGetStr l l.length = "undefined" := by
  have hnone : l.get? l.length = none := by
    rw [List.get?_eq_getElem?]
    exact List.getElem?_eq_none (Nat.le_refl _)
  refine ⟨?_, hnone, ?_⟩
  · rw [srcLoopReads_no_match l src h (l.length + 1) 0 (by omega),
      List.range_eq_range']
  · rw [jsArrGetStr, hnone]

theorem validateSrcPrefix_loop_reads_past_end_witness :
    (∀ q ∈ List.range (["https:"] : List String).length,
      jsIndexOfIsZero "foo" (jsArrGetStr ["https:"] q) = false) ∧
    (srcLoopReads ["https:"] "foo" 0
        = List.range ((["https:"] : List String).length + 1) ∧
      (["https:"] : List String).get? (["https:"] : List String).length = none ∧
      jsArrGetStr ["https:"] (["https:"] : List String).length = "undefined") :=
  ⟨by decide, validateSrcPrefix_loop_reads_past_end ["https:"] "foo" (by decide)⟩

/-- Claim C9: `validateSrcPrefix` throws for every prefix argument when
`src` is `undefined`: the guard `src !== undefined` skips the prefix scan
entirely and control falls through to the `throw`. -/
theorem validateSrcPrefix_undefined_src_throws (pfx : StrOrArr) :
    validateSrcPrefix pfx none = false := rfl

/-! ### `validateData` (claim C8)

  export function validateData(data, allowedFields) {
    const defaultAvailableFields = {
      width: true, height: true, type: true, referrer: true,
      canonicalUrl: true, pageViewId: true, location: true, mode: true,
      consentNotificationId: true,
    };
    for (const field in data) {
      if (!data.hasOwnProperty(field) ||
          field in defaultAvailableFields) {
        continue;
      }
      user().assert(allowedFields.indexOf(field) != -1,
          'Unknown attribute for %s: %s.', data.type, field);
    }
  }
-/

/-- The keys of the `defaultAvailableFields` object literal. -/
def defaultAvailableFields : List String :=
  ["width", "height", "type", "referrer", "canonicalUrl", "pageViewId",
    "location", "mode", "consentNotificationId"]

/-- `validateData(data, allowedFields)`.  `data` is modelled by its own
enumerable field names in iteration order; for such keys
`data.hasOwnProperty(field)` is true, so the first half of the `continue`
condition never fires.  The `field in defaultAvailableFields` test is
modelled as membership in the key list (the JS `in` operator would also
accept inherited `Object.prototype` member names such as "toString" -
that only makes the real code skip more fields and cannot make it reject
one of the nine defaults, which are own properties).  Returns the first
field on which `user().assert` fires - not a default and
`allowedFields.indexOf(field) == -1` - or `none` when validation
passes. -/
def validateData (data : List String) (allowedFields : List String) : Option String :=
  data.find? (fun field =>
    !(decide (field ∈ defaultAvailableFields)) && !(decide (field ∈ allowedFields)))

/-- Claim C8: the unknown-attribute assertion never fires on one of the
nine default fields, for every `data` object and every `allowedFields`
list - even when the field is not listed in `allowedFields`. -/
theorem validateData_never_rejects_default_fields
    (data allowedFields : List String) (f : String)
    (hf : f ∈ defaultAvailableFields) :
    validateData data allowedFields ≠ some f := by
  intro heq
  have hp := List.find?_some heq
  simp only [Bool.and_eq_true, Bool.not_eq_true', decide_eq_false_iff_not] at hp
  exact hp.1 hf

theorem validateData_never_rejects_default_fields_witness :
    "width" ∈ defaultAvailableFields ∧
    validateData ["width", "foo"] [] ≠ some "width" :=
  ⟨by decide,
    validateData_never_rejects_default_fields ["width", "foo"] [] "width" (by decide)⟩

/-! ### `validateExactlyOne` (claim C10)

  export function validateExactlyOne(data, alternativeFields) {
    let countFileds = 0;
    for (let i = 0; i < alternativeFields.length; i++) {
      const field = alternativeFields[i];
      if (data[field]) {
        countFileds += 1;
      }
    }
    user().assert(countFileds === 1, ...);
  }
-/

/-- A JavaScript value, as far as truthiness goes. -/
inductive JsVal
  | undef
  | vnull
  | vbool (b : Bool)
  | vnum (n : Int)
  | vstr (s : String)
deriving DecidableEq

/-- JS truthiness: `undefined`, `null`, `false`, `0` and the empty string
are falsy; other values here are truthy. -/
def truthy : JsVal → Bool
  | JsVal.undef => false
  | JsVal.vnull => false
  | JsVal.vbool b => b
  | JsVal.vnum n => decide (n ≠ 0)
  | JsVal.vstr s => decide (s ≠ "")

/-- `data` as a total map from field name to value: reading a missing
field yields `undefined`.  `updateData data f v` rebinds field `f`. -/
def updateData (data : String → JsVal) (f : String) (v : JsVal) : String → JsVal :=
  fun g => if g = f then v else data g

/-- `validateExactlyOne(data, alternativeFields)`: counts the listed
fields with a truthy value (`if (data[field])`), then asserts
`countFileds === 1`.  Returns `true` when the assertion passes. -/
def validateExactlyOne (data : String → JsVal) (alternativeFields : List String) : Bool :=
  let countFileds := alternativeFields.foldl
    (fun acc field => if truthy (data field) then acc + 1 else acc) 0
  countFileds == 1

/-- The counting loop counts exactly the listed fields with truthy
values. -/
theorem foldl_count_truthy (data : String → JsVal) (l : List String) :
    ∀ n, l.foldl (fun acc field => if truthy (data field) then acc + 1 else acc) n
      = n + (l.filter (fun g => truthy (data g))).length := by
  induction l with
  | nil => intro n; simp
  | cons f rest ih =>
    intro n
    simp only [List.foldl_cons, List.filter_cons]
    cases hf : truthy (data f) with
    | true =>
      simp only [hf, if_true, List.length_cons, ih]
      omega
    | false =>
      simp only [hf, Bool.false_eq_true, if_false, ih]

/-- Claim C10: `validateExactlyOne` counts only truthy-valued fields: a
field bound to a falsy value (`undefined`, `null`, `false`, `0`, `""`)
contributes nothing - rebinding it to `undefined` (absence) leaves the
outcome unchanged - and the assertion passes precisely when exactly one
listed field holds a truthy value. -/
theorem validateExactlyOne_counts_only_truthy
    (data : String → JsVal) (alternativeFields : List String) (f : String)
    (hf : truthy (data f) = false) :
    validateExactlyOne (updateData data f JsVal.undef) alternativeFields
      = validateExactlyOne data alternativeFields ∧
    (validateExactlyOne data alternativeFields = true ↔
      (alternativeFields.filter (fun g => truthy (data g))).length = 1) := by
  have hpt : ∀ g, truthy (updateData data f JsVal.undef g) = truthy (data g) := by
    intro g
    by_cases hgf : g = f
    · subst hgf
      rw [updateData, if_pos rfl, hf]
      rfl
    · rw [updateData, if_neg hgf]
  constructor
  · simp only [validateExactlyOne, foldl_count_truthy]
    rw [List.filter_congr (fun g _ => hpt g)]
  · simp only [validateExactlyOne, foldl_count_truthy, Nat.zero_add, beq_iff_eq]

/-- A concrete data object: field "a" holds the falsy number 0, field
"b" holds the truthy string "x", everything else is absent. -/
def withAB : String → JsVal :=
  fun g => if g = "a" then JsVal.vnum 0 else if g = "b" then JsVal.vstr "x" else JsVal.undef

theorem validateExactlyOne_counts_only_truthy_witness :
    truthy (withAB "a") = false ∧
    (validateExactlyOne (updateData withAB "a" JsVal.undef) ["a", "b"]
        = validateExactlyOne withAB ["a", "b"] ∧
      (validateExactlyOne withAB ["a", "b"] = true ↔
        ((["a", "b"] : List String).filter (fun g => truthy (withAB g))).length = 1)) :=
  ⟨by decide, validateExactlyOne_counts_only_truthy withAB ["a", "b"] "a" (by decide)⟩
